import Mathlib

/-!
Verification of the spectral-analysis module `spec.py` of pyIACOB.

The development shallowly embeds the numeric core of the module:
exact rational arithmetic (`ℚ`) models the floating-point data wherever
the source computation is exact field arithmetic (window selection,
linear least squares, sigma clipping, convolution, trapezoidal sums,
equivalent width, cosmic-ray cleaning), and real numbers (`ℝ`) model the
places where the source computes square roots or exponentials (standard
deviations, Gaussian kernels).  The square-root comparisons inside
sigma clipping and defect flagging are embedded by their exact
square-comparison equivalents where the embedding must stay executable
(sigma clipping inside the fitting loop); the bridging lemma `keepB_iff`
proves them equivalent to the `Real.sqrt` bounds the source computes.  `scipy.optimize.curve_fit` is an external optimizer
and is modelled as an oracle parameter returning `Option` (failure =
raised exception).  Python `round` is modelled by exact
round-half-to-even on rationals.
-/

set_option maxRecDepth 300000

/-! ### Basic numeric operations (numpy counterparts) -/

/-- Insertion step for an insertion sort on rationals. -/
def insertS (x : ℚ) : List ℚ → List ℚ
  | [] => [x]
  | y :: t => if x ≤ y then x :: y :: t else y :: insertS x t

/-- Sorting a list of rationals (ascending), used by the median. -/
def sortQ (l : List ℚ) : List ℚ := l.foldr insertS []

/-- `np.mean`: arithmetic mean; `0` on the empty list (numpy warns and
returns nan there; that case is never hit on the verified paths). -/
def meanQ (l : List ℚ) : ℚ := l.sum / l.length

/-- `np.var` with `ddof=0` (population variance), the square of `np.std`
which the source applies; the standard deviation itself is
`Real.sqrt (varP l)`. -/
def varP (l : List ℚ) : ℚ := ((l.map (fun x => (x - meanQ l) ^ 2)).sum) / l.length

/-- `np.median`: middle element of the sorted list, or the average of the
two middle elements for even length. -/
def medianQ (l : List ℚ) : ℚ :=
  let s := sortQ l
  let n := s.length
  if n % 2 = 1 then s.getD (n / 2) 0
  else (s.getD (n / 2 - 1) 0 + s.getD (n / 2) 0) / 2

/-- Select the elements of `xs` at the positions where the mask is `true`
(numpy boolean-mask indexing `xs[m]`). -/
def selB (xs : List ℚ) (m : List Bool) : List ℚ :=
  ((xs.zip m).filter (fun p => p.2)).map (fun p => p.1)

/-- Pointwise division of two arrays (numpy broadcasting `a / b`).
Division by zero yields `0` in `ℚ`; the source would produce inf/nan
there and that case is never hit on the verified paths. -/
def zipDiv (a b : List ℚ) : List ℚ := List.zipWith (fun x y => x / y) a b

/-- `np.trapz(y, x)`: trapezoidal integral of samples `y` against
abscissae `x`. -/
def trapzX : List ℚ → List ℚ → ℚ
  | a :: b :: t, ya :: yb :: yt => (b - a) * (ya + yb) / 2 + trapzX (b :: t) (yb :: yt)
  | _, _ => 0

/-- Largest element of a list (`max`), `0` for the empty list. -/
def listMax : List ℚ → ℚ
  | [] => 0
  | x :: t => t.foldl max x

/-- Smallest element of a list (`min`), `0` for the empty list. -/
def listMin : List ℚ → ℚ
  | [] => 0
  | x :: t => t.foldl min x

/-- Round-half-to-even to an integer, the semantics of Python `round`. -/
def roundHalfEven (x : ℚ) : ℤ :=
  let f := ⌊x⌋
  let d := x - f
  if d < 1 / 2 then f
  else if 1 / 2 < d then f + 1
  else if f % 2 = 0 then f else f + 1

/-- Python `round(x, 2)`. -/
def pyRound2 (q : ℚ) : ℚ := (roundHalfEven (q * 100) : ℚ) / 100

/-- Python `round(x, 3)`. -/
def pyRound3 (q : ℚ) : ℚ := (roundHalfEven (q * 1000) : ℚ) / 1000

/-! ### Sigma clipping (astropy `sigma_clip`, `cenfunc='median'`,
`stdfunc='std'`, `maxiters=None`)

A sample is kept when `center - 1.4*std ≤ x ≤ center + 2.5*std` with
`std = Real.sqrt (varP kept)`.  `keepB` decides this bound exactly by
comparing squares; `keepB_iff` below proves it equivalent to the
square-root form the source computes. -/

/-- Keep-test of one sigma-clipping step: exact decision of
`c - 1.4*sqrt v ≤ x ≤ c + 2.5*sqrt v` (for `v ≥ 0`) by squaring. -/
def keepB (x c v : ℚ) : Bool :=
  (if c - x ≤ 0 then true else decide ((c - x) ^ 2 ≤ 49 / 25 * v)) &&
  (if x - c ≤ 0 then true else decide ((x - c) ^ 2 ≤ 25 / 4 * v))

/-- One clipping iteration: statistics over the currently kept samples,
then every sample outside the asymmetric sigma bounds is masked out.
Samples already masked stay masked. -/
def clipStep (xs : List ℚ) (m : List Bool) : List Bool :=
  let s := selB xs m
  let c := medianQ s
  let v := varP s
  (xs.zip m).map (fun p => p.2 && keepB p.1 c v)

/-- Clipping iterations until the mask no longer changes (`maxiters=None`);
the fuel bounds the number of steps, and since each non-final step
strictly shrinks the mask, fuel `length + 1` realizes the unlimited
iteration of the source. -/
def clipIter (xs : List ℚ) : ℕ → List Bool → List Bool
  | 0, m => m
  | n + 1, m =>
    let m2 := clipStep xs m
    if m2 = m then m else clipIter xs n m2

/-- `~sigma_clip(xs, sigma_lower=1.4, sigma_upper=2.5, maxiters=None).mask`:
`true` on the samples that survive the clipping. -/
def sigmaClipMask (xs : List ℚ) : List Bool :=
  clipIter xs (xs.length + 1) (List.replicate xs.length true)

/-! ### Linear continuum fit (`np.polyfit(wave, flux, 1)` / `np.poly1d`) -/

/-- Degree-1 least squares fit, returning `(slope, intercept)`: the
normal-equation solution of `np.polyfit(xs, ys, 1)` (valid whenever the
design matrix has full rank, i.e. at least two distinct abscissae). -/
def polyfit1 (xs ys : List ℚ) : ℚ × ℚ :=
  let n : ℚ := xs.length
  let Sx := xs.sum
  let Sy := ys.sum
  let Sxx := (xs.map (fun x => x ^ 2)).sum
  let Sxy := ((xs.zip ys).map (fun p => p.1 * p.2)).sum
  let den := n * Sxx - Sx ^ 2
  let slope := (n * Sxy - Sx * Sy) / den
  (slope, (Sy - slope * Sx) / n)

/-- Evaluation of the fitted first-degree polynomial (`np.poly1d`). -/
def polyval1 (c : ℚ × ℚ) (x : ℚ) : ℚ := c.1 * x + c.2

/-! ### Continuum normalizer (`spec.fitline`, lines 300-310) -/

/-- One normalization round: fit the linear continuum to the currently
unmasked samples, evaluate it over the whole window, and recompute the
mask by sigma-clipping `flux / continuum`. -/
def normRound (wave flux : List ℚ) (m : List Bool) : List ℚ × List Bool :=
  let cont := wave.map (polyval1 (polyfit1 (selB wave m) (selB flux m)))
  (cont, sigmaClipMask (zipDiv flux cont))

/-- State (continuum, mask) after `k` normalization rounds, starting from
the all-true mask (`~np.isnan(flux)` on NaN-free data); the initial
continuum placeholder is never read. -/
def normRounds (wave flux : List ℚ) : ℕ → List ℚ × List Bool
  | 0 => (List.replicate wave.length 1, List.replicate flux.length true)
  | k + 1 => normRound wave flux (normRounds wave flux k).2

/-- Result of the continuum normalizer. -/
structure NormResult where
  fluxNorm : List ℚ
  cont : List ℚ
  mask : List Bool
deriving DecidableEq

/-- The continuum normalizer: `iter_norm = 4` rounds, then the final
normalization `flux / continuum`; the returned mask is the one computed
in the last round (recomputed after the final continuum fit, since the
guard `if j < iter_norm` of the source always holds). -/
def normalizeWin (wave flux : List ℚ) : NormResult :=
  let s := normRounds wave flux 4
  { fluxNorm := zipDiv flux s.1, cont := s.1, mask := s.2 }

/-! ### Bridging lemma: the squared comparisons used by `keepB` agree
with the square-root bounds the source computes. -/

theorem varP_nonneg (l : List ℚ) : 0 ≤ varP l := by
  unfold varP
  apply div_nonneg _ (by positivity)
  apply List.sum_nonneg
  intro x hx
  obtain ⟨y, -, rfl⟩ := List.mem_map.mp hx
  positivity

theorem keepB_iff (x c v : ℚ) (hv : 0 ≤ v) :
    keepB x c v = true ↔
      ((c : ℝ) - 7 / 5 * Real.sqrt (v : ℝ) ≤ x ∧ (x : ℝ) ≤ c + 5 / 2 * Real.sqrt (v : ℝ)) := by
  have hv' : (0 : ℝ) ≤ (v : ℝ) := by exact_mod_cast hv
  have hs : 0 ≤ Real.sqrt (v : ℝ) := Real.sqrt_nonneg _
  have key : ∀ a k : ℚ, 0 < k →
      ((if a ≤ 0 then true else decide (a ^ 2 ≤ k ^ 2 * v)) = true ↔
        (a : ℝ) ≤ k * Real.sqrt (v : ℝ)) := by
    intro a k hk
    have hk' : (0 : ℝ) < (k : ℝ) := by exact_mod_cast hk
    by_cases ha : a ≤ 0
    · have h2 : (a : ℝ) ≤ (k : ℝ) * Real.sqrt (v : ℝ) := by
        have : (a : ℝ) ≤ 0 := by exact_mod_cast ha
        exact this.trans (by positivity)
      simp [ha, h2]
    · simp only [ha, if_neg, not_false_iff, decide_eq_true_eq]
      push_neg at ha
      have ha' : (0 : ℝ) < (a : ℝ) := by exact_mod_cast ha
      rw [show ((k : ℝ) * Real.sqrt (v : ℝ)) = Real.sqrt ((k ^ 2 * v : ℚ) : ℝ) by
        push_cast
        rw [Real.sqrt_mul (by positivity), Real.sqrt_sq hk'.le]]
      rw [show ((a : ℝ) ≤ Real.sqrt ((k ^ 2 * v : ℚ) : ℝ)) ↔
            ((a : ℝ) ^ 2 ≤ ((k ^ 2 * v : ℚ) : ℝ)) from
        Real.le_sqrt' ha']
      constructor
      · intro h
        exact_mod_cast h
      · intro h
        exact_mod_cast h
  unfold keepB
  rw [Bool.and_eq_true]
  have h1 := key (c - x) (7 / 5) (by norm_num)
  have h2 := key (x - c) (5 / 2) (by norm_num)
  norm_num at h1 h2 ⊢
  rw [h1, h2]
  constructor
  · rintro ⟨hl, hr⟩
    constructor <;> linarith
  · rintro ⟨hl, hr⟩
    constructor <;> [push_cast; push_cast] <;> linarith

/-! ### Line profiles (`spec.py`, lines 726-727)

Only the Lorentzian is exact rational arithmetic; the other profiles
(Gaussian, Voigt, rotational) involve `exp` and the Faddeeva function and
enter the fitting loop only through the `fitfunc` parameter. -/

/-- `f_lorentzian(x, A, x0, gamma, y) = A*gamma**2/((x-x0)**2 + gamma**2) + y`. -/
def f_lorentzian (x A x0 gamma y : ℚ) : ℚ :=
  A * gamma ^ 2 / ((x - x0) ^ 2 + gamma ^ 2) + y

/-- The Lorentzian profile applied to a parameter vector `[A, x0, gamma, y]`
over a wavelength array, as `curve_fit`/`fitfunc(wave, *popt)` does. -/
def lorentzEval (wave popt : List ℚ) : List ℚ :=
  match popt with
  | [A, x0, g, y] => wave.map (fun x => f_lorentzian x A x0 g y)
  | _ => wave.map (fun _ => 0)

/-! ### Optimizer bounds (`spec.fitline`, lines 225-284) -/

/-- `tol_aa = tol*line*1000/cte.c` (km/s tolerance to angstrom), over `ℚ`. -/
def tolAA (tol line : ℚ) : ℚ := tol * line * 1000 / 299792458

/-- `tol_aa = tol*line*1000/cte.c`, over `ℝ` (for the bound lists, which
contain the irrational `sig_min`). -/
noncomputable def tolAAR (tol line : ℝ) : ℝ := tol * line * 1000 / 299792458

/-- One optimizer bound entry: `-np.inf`, a finite value, or `np.inf`. -/
inductive Bnd where
  | ninf
  | fin (x : ℝ)
  | inf

/-- The profile selector `func` of `fitline`. -/
inductive Func where
  | g
  | l
  | v
  | r
  | vr_H
  | vr_Z
  | vrg_H
  | vrg_Z

/-- The `(lower, upper)` bound lists `fitline` passes to `curve_fit` for
each profile choice; `sigma, sig_min, sig_max = 0.8, dlamb/2/sqrt(2 log 2), 4`
and `tol_aa` as in the source. -/
noncomputable def fitlineBounds (f : Func) (line tol res : ℝ) : List Bnd × List Bnd :=
  let tol_aa := tolAAR tol line
  let dlamb := line / res
  let sig_min := dlamb / 2 / Real.sqrt (2 * Real.log 2)
  let sig_max : ℝ := 4
  match f with
  | .g => ([.ninf, .fin (line - tol_aa), .fin sig_min],
           [.fin 0, .fin (line + tol_aa), .fin sig_max])
  | .l => ([.ninf, .fin (line - tol_aa), .ninf, .fin 1],
           [.fin 0, .fin (line + tol_aa), .inf, .fin 1.01])
  | .v => ([.fin (-0.5), .fin (line - tol_aa), .fin 0, .fin 0, .fin 1],
           [.fin 0, .fin (line + tol_aa), .fin 2, .fin 0.5, .fin 1.01])
  | .r => ([.fin 0, .fin (line - tol_aa), .fin 0, .fin 1],
           [.fin 0.3, .fin (line + tol_aa), .fin 2.5, .fin 410])
  | .vr_H => ([.fin (-0.5), .fin (line - tol_aa), .fin 0, .fin 0, .fin 1, .fin 0],
              [.fin 0, .fin (line + tol_aa), .fin 1.5, .fin 1.5, .fin 410, .fin 0.01])
  | .vr_Z => ([.fin (-0.1), .fin (line - tol_aa), .fin 0, .fin 0, .fin 1, .fin 0],
              [.fin 0, .fin (line + tol_aa), .fin 1.5, .fin 1, .fin 410, .fin 0.01])
  | .vrg_H => ([.fin (-0.4), .fin (line - tol_aa), .fin 0, .fin 0, .fin 1, .fin (-0.07),
                .fin 0, .fin 0],
               [.fin 0, .fin (line + tol_aa), .fin 10, .fin 10, .fin 410, .fin 0,
                .fin 4, .fin 0.01])
  | .vrg_Z => ([.fin (-0.1), .fin (line - tol_aa), .fin 0, .fin 0, .fin 1, .fin (-1.3),
                .fin 0, .fin (-0.01)],
               [.fin 0, .fin (line + tol_aa), .fin 1.5, .fin 1, .fin 410, .fin 0,
                .fin 2, .fin 0.01])

/-! ### The adaptive refinement loop (`spec.fitline`, lines 288-336) -/

/-- Window extraction
`(wave >= line - width/2) & (wave <= line + width/2)`, applied jointly to
wavelength and flux. -/
def windowSel (wave flux : List ℚ) (line width : ℚ) : List ℚ × List ℚ :=
  let p := (wave.zip flux).filter
    (fun q => decide (line - width / 2 ≤ q.1) && decide (q.1 ≤ line + width / 2))
  (p.map (fun q => q.1), p.map (fun q => q.2))

/-- The raw empirical width: `medval = (max + min)/2` of the fitted flux,
and the wavelength distance between the first and the last sample whose
fitted flux is `≤ medval` (`np.where(flux_fit <= medval)[0][0]` and `[-1]`). -/
def halfDist (wave ffit : List ℚ) : ℚ :=
  let medval := (listMax ffit + listMin ffit) / 2
  let i0 := ffit.findIdx (fun v => decide (v ≤ medval))
  let i1 := ffit.length - 1 - ffit.reverse.findIdx (fun v => decide (v ≤ medval))
  wave.getD i1 0 - wave.getD i0 0

/-- The empirical FWHM of an iteration:
`FWHM = round(wave[medpos[1]] - wave[medpos[0]], 2)`. -/
def empFWHM (wave ffit : List ℚ) : ℚ := pyRound2 (halfDist wave ffit)

/-- The per-iteration state saved on acceptance
(`flux_norm, continuum, mask, flux_fit, popt, width`). -/
structure AccState where
  fluxNorm : List ℚ
  cont : List ℚ
  mask : List Bool
  fluxFit : List ℚ
  popt : List ℚ
  width : ℚ
deriving DecidableEq

/-- Trace record of one accepted iteration: the window width it used, the
empirical FWHM it measured, and the state it saved. -/
structure IterRec where
  width : ℚ
  fwhm : ℚ
  st : AccState
deriving DecidableEq

/-- The fixed data of one `fitline` call: the spectrum arrays, the line,
the dispersion limit `dlamb = line/resolution`, `FWHM_max`, the external
bounded optimizer (`curve_fit`, `none` = raised exception), and the
profile function chosen by `func`. -/
structure FitCtx where
  wave : List ℚ
  flux : List ℚ
  line : ℚ
  dlamb : ℚ
  fwhmMax : ℚ
  curveFit : List ℚ → List ℚ → Option (List ℚ)
  fitfunc : List ℚ → List ℚ → List ℚ

/-- The window of one iteration with current width `w`. -/
def iterWin (ctx : FitCtx) (w : ℚ) : List ℚ × List ℚ :=
  windowSel ctx.wave ctx.flux ctx.line w

/-- The continuum normalization of one iteration. -/
def iterNorm (ctx : FitCtx) (w : ℚ) : NormResult :=
  normalizeWin (iterWin ctx w).1 (iterWin ctx w).2

/-- The empirical FWHM of one iteration, given the optimizer output. -/
def iterFW (ctx : FitCtx) (w : ℚ) (popt : List ℚ) : ℚ :=
  empFWHM (iterWin ctx w).1 (ctx.fitfunc (iterWin ctx w).1 popt)

/-- One iteration attempt of the refinement loop: extract the window
(`break` when empty), normalize, call the optimizer (`break` on
exception), evaluate the fit and its empirical FWHM, and accept exactly
when `dlamb < FWHM < FWHM_max`. -/
def stepTry (ctx : FitCtx) (w : ℚ) : Option (ℚ × AccState) :=
  if (iterWin ctx w).1 = [] then none
  else
    match ctx.curveFit (iterWin ctx w).1 (iterNorm ctx w).fluxNorm with
    | none => none
    | some popt =>
      if ctx.dlamb < iterFW ctx w popt ∧ iterFW ctx w popt < ctx.fwhmMax then
        some (iterFW ctx w popt,
          ⟨(iterNorm ctx w).fluxNorm, (iterNorm ctx w).cont, (iterNorm ctx w).mask,
           ctx.fitfunc (iterWin ctx w).1 popt, popt, w⟩)
      else none

/-- The refinement loop (`while i < iterations`): the fuel is the number
of acceptances still allowed; on acceptance the state is saved, the next
width becomes `FWHM*7` and the loop continues, on any `break` it stops
keeping the last saved state.  Also returns the trace of accepted
iterations. -/
def fitlineLoop (ctx : FitCtx) : ℕ → ℚ → Option AccState → Option AccState × List IterRec
  | 0, _, acc => (acc, [])
  | n + 1, w, acc =>
    match stepTry ctx w with
    | none => (acc, [])
    | some (fw, st) =>
      let r := fitlineLoop ctx n (fw * 7) (some st)
      (r.1, ⟨w, fw, st⟩ :: r.2)

/-! ### Finalization (`spec.fitline`, lines 339-434) -/

/-- `wave[np.where(flux_fit == min(flux_fit))][0]`: the wavelength of the
first minimum of the fitted flux. -/
def fittedCenter (wave ffit : List ℚ) : ℚ :=
  wave.getD (ffit.findIdx (fun v => decide (v = listMin ffit))) 0

/-- The alternating sum
`fsum((wave[wl-1]-wave[wl])*((1-flux_fit[wl-1])+(1-flux_fit[wl])))`
of the equivalent-width block (`fsum` adds exactly, as `ℚ` does). -/
def ewSum : List ℚ → List ℚ → ℚ
  | a :: b :: t, ya :: yb :: yt => (a - b) * ((1 - ya) + (1 - yb)) + ewSum (b :: t) (yb :: yt)
  | _, _ => 0

/-- The equivalent width `EW = round(1000*(.5*abs(fsum ...)), 2)` in mAA. -/
def EW_of (wave ffit : List ℚ) : ℚ := pyRound2 (1000 * (1 / 2 * |ewSum wave ffit|))

/-- Python list indexing with negative wraparound (`l[i]`, `l[-1]` the last
element), total with default `0`. -/
def pyIdx (l : List ℚ) (i : ℤ) : ℚ :=
  if i < 0 then l.getD (l.length - (-i).toNat) 0 else l.getD i.toNat 0

/-- `np.interp(m, [x0, x1], [y0, y1])` for a two-element table (numpy
assumes `x0 ≤ x1` and clamps outside the table). -/
def npInterp2 (m x0 x1 y0 y1 : ℚ) : ℚ :=
  if m ≤ x0 then y0
  else if x1 ≤ m then y1
  else y0 + (m - x0) * (y1 - y0) / (x1 - x0)

/-- The precise FWHM of the finalization block: linear interpolation of
the half-depth crossing on each side; the right side falls back to the
last sample when `medpos[1]+1` runs past the array (`IndexError` caught),
the left side uses Python index `medpos[0]-1` (wrapping to the last
element when `medpos[0] = 0`). -/
def FWHMfinal (wave ffit : List ℚ) : ℚ :=
  let medval := (listMax ffit + listMin ffit) / 2
  let n := ffit.length
  let p0 := ffit.findIdx (fun v => decide (v ≤ medval))
  let p1 := n - 1 - ffit.reverse.findIdx (fun v => decide (v ≤ medval))
  let lval := npInterp2 medval (ffit.getD p0 0) (pyIdx ffit ((p0 : ℤ) - 1))
    (wave.getD p0 0) (pyIdx wave ((p0 : ℤ) - 1))
  let rval := if p1 + 1 < n then
      npInterp2 medval (ffit.getD p1 0) (ffit.getD (p1 + 1) 0)
        (wave.getD p1 0) (wave.getD (p1 + 1) 0)
    else wave.getD p1 0
  pyRound2 (rval - lval)

/-- `depth = round(1 - min(flux_fit), 2)`. -/
def depthOf (ffit : List ℚ) : ℚ := pyRound2 (1 - listMin ffit)

/-- The rational-valued outputs and arrays of a successful `fitline` call. -/
structure FinalQ where
  fittedLine : ℚ
  RVangs : ℚ
  RVlamb : ℚ
  EW : ℚ
  FWHM : ℚ
  depth : ℚ
  wave : List ℚ
  flux : List ℚ
  fluxNorm : List ℚ
  mask : List Bool
  fluxFit : List ℚ
  popt : List ℚ
deriving DecidableEq

/-- The whole of `fitline` after parameter setup: the refinement loop,
the `i == 0` check, the tolerance check on the fitted center, and the
derived quantities; `none` is the `[np.nan]*9` sentinel path. -/
def fitlineRun (wave flux : List ℚ) (line width tol res offset : ℚ)
    (curveFit : List ℚ → List ℚ → Option (List ℚ))
    (fitfunc : List ℚ → List ℚ → List ℚ) (iter : ℕ) : Option FinalQ :=
  let tolaa := tolAA tol line
  let dlamb := line / res
  let ctx : FitCtx := ⟨wave, flux, line, dlamb, 20, curveFit, fitfunc⟩
  let r := fitlineLoop ctx iter width none
  match r.1 with
  | none => none
  | some a =>
    let win := windowSel wave flux line a.width
    let fitted := fittedCenter win.1 a.fluxFit
    if tolaa < |line - fitted| then none
    else
      let fitted2 := fitted + offset
      some { fittedLine := pyRound3 fitted2
             RVangs := pyRound3 (fitted2 - line)
             RVlamb := pyRound3 ((fitted2 - line) / line * 299792458 / 1000)
             EW := EW_of win.1 a.fluxFit
             FWHM := FWHMfinal win.1 a.fluxFit
             depth := depthOf a.fluxFit
             wave := win.1
             flux := win.2
             fluxNorm := a.fluxNorm
             mask := a.mask
             fluxFit := a.fluxFit
             popt := a.popt }

/-! ### The returned 9-tuple -/

/-- The `data` element returned as the ninth value:
`[wave, flux, flux_norm, flux_fit, popt]`. -/
structure FitData where
  wave : List ℚ
  flux : List ℚ
  fluxNorm : List ℚ
  fluxFit : List ℚ
  popt : List ℚ

/-- One element of the returned tuple: `np.nan`, a number, or the data
arrays. -/
inductive RVal where
  | nan
  | num (x : ℝ)
  | arr (d : FitData)

/-- `np.std` of a rational array, as the real square root of the
population variance. -/
noncomputable def stdR (l : List ℚ) : ℝ := Real.sqrt (varP l)

/-- Python `int(x)`: truncation toward zero. -/
noncomputable def pyInt (x : ℝ) : ℤ := if 0 ≤ x then ⌊x⌋ else ⌈x⌉

/-- `snr = int(1/np.std(flux_norm[mask]))` (`spec.py`, lines 396-397). -/
noncomputable def snrOf (fluxNorm : List ℚ) (mask : List Bool) : ℤ :=
  pyInt (1 / stdR (selB fluxNorm mask))

/-- `flux_norm[flux_fit < .995] / flux_fit[flux_fit < .995]`. -/
def qsel (fluxNorm fluxFit : List ℚ) : List ℚ :=
  ((fluxNorm.zip fluxFit).filter (fun p => decide (p.2 < 199 / 200))).map
    (fun p => p.1 / p.2)

/-- Round-half-to-even on a real (Python `round` on exact values). -/
noncomputable def roundHalfEvenR (x : ℝ) : ℤ :=
  let f := ⌊x⌋
  let d := x - f
  if d < 1 / 2 then f
  else if 1 / 2 < d then f + 1
  else if f % 2 = 0 then f else f + 1

/-- `q_fit = round(np.std(ratio)/sigma_cont, 3)` (`spec.py`, lines 402-403). -/
noncomputable def qfitOf (fluxNorm fluxFit : List ℚ) (mask : List Bool) : ℝ :=
  (roundHalfEvenR (stdR (qsel fluxNorm fluxFit) / stdR (selB fluxNorm mask) * 1000) : ℝ) / 1000

/-- The 9-element return value of `fitline`: on failure the uniform
sentinel `[np.nan]*9`, on success
`fitted_line, RV_angs, RV_lamb, EW, FWHM, depth, snr, q_fit, data`. -/
noncomputable def renderFit : Option FinalQ → List RVal
  | none => List.replicate 9 RVal.nan
  | some f =>
    [RVal.num (f.fittedLine : ℝ), RVal.num (f.RVangs : ℝ), RVal.num (f.RVlamb : ℝ),
     RVal.num (f.EW : ℝ), RVal.num (f.FWHM : ℝ), RVal.num (f.depth : ℝ),
     RVal.num ((snrOf f.fluxNorm f.mask : ℤ) : ℝ),
     RVal.num (qfitOf f.fluxNorm f.fluxFit f.mask),
     RVal.arr ⟨f.wave, f.flux, f.fluxNorm, f.fluxFit, f.popt⟩]

/-- C4: for every profile choice, the optimizer bounds for the center
wavelength `x0` (position 1 of both bound lists) are exactly
`line - tol_aa` and `line + tol_aa` with `tol_aa = tol*line*1000/c`. -/
theorem fitline_center_bounds (f : Func) (line tol res : ℝ) :
    (fitlineBounds f line tol res).1.get? 1 = some (Bnd.fin (line - tolAAR tol line)) ∧
    (fitlineBounds f line tol res).2.get? 1 = some (Bnd.fin (line + tolAAR tol line)) := by
  cases f <;> exact ⟨rfl, rfl⟩

/-! ### Characterization of the refinement loop (claim C1) -/

/-- Every accepted iteration of a trace measured an empirical FWHM
strictly between `dlamb` and `FWHM_max`. -/
def traceInRange (dlamb fwhmMax : ℚ) : List IterRec → Bool
  | [] => true
  | r :: t => (decide (dlamb < r.fwhm) && decide (r.fwhm < fwhmMax)) &&
      traceInRange dlamb fwhmMax t

/-- The widths of a trace are chained: the first accepted iteration uses
the incoming width, each subsequent one uses `FWHM*7` of the previous,
and each saved state records the width it was fitted with. -/
def traceChained (w : ℚ) : List IterRec → Bool
  | [] => true
  | r :: t => (decide (r.width = w) && decide (r.st.width = w)) &&
      traceChained (r.fwhm * 7) t

/-- The state kept on halting: the state of the last accepted iteration
of the trace, or the incoming state when no iteration was accepted. -/
def lastAccepted (a : Option AccState) : List IterRec → Option AccState
  | [] => a
  | r :: t => lastAccepted (some r.st) t

theorem stepTry_some {ctx : FitCtx} {w fw : ℚ} {st : AccState}
    (h : stepTry ctx w = some (fw, st)) :
    ctx.dlamb < fw ∧ fw < ctx.fwhmMax ∧ st.width = w := by
  unfold stepTry at h
  split at h
  · exact absurd h (by simp)
  · split at h
    · exact absurd h (by simp)
    · split at h
      · rename_i popt heq hc
        rw [Option.some.injEq, Prod.mk.injEq] at h
        obtain ⟨rfl, rfl⟩ := h
        exact ⟨hc.1, hc.2, rfl⟩
      · exact absurd h (by simp)

theorem fitlineLoop_skeleton (ctx : FitCtx) (n : ℕ) (w : ℚ) (a : Option AccState) :
    (fitlineLoop ctx n w a).2.length ≤ n ∧
    traceInRange ctx.dlamb ctx.fwhmMax (fitlineLoop ctx n w a).2 = true ∧
    traceChained w (fitlineLoop ctx n w a).2 = true ∧
    (fitlineLoop ctx n w a).1 = lastAccepted a (fitlineLoop ctx n w a).2 := by
  induction n generalizing w a with
  | zero => simp [fitlineLoop, traceInRange, traceChained, lastAccepted]
  | succ n ih =>
    cases h : stepTry ctx w with
    | none => simp [fitlineLoop, h, traceInRange, traceChained, lastAccepted]
    | some p =>
      obtain ⟨fw, st⟩ := p
      obtain ⟨h1, h2, h3⟩ := stepTry_some h
      obtain ⟨ihl, ihr, ihc, ihs⟩ := ih (fw * 7) (some st)
      simp only [fitlineLoop, h, List.length_cons, traceInRange, traceChained,
        lastAccepted, Bool.and_eq_true, decide_eq_true_eq]
      refine ⟨by omega, ⟨⟨h1, h2⟩, ihr⟩, ⟨⟨trivial, h3⟩, ihc⟩, ihs⟩

/-- C1 (amended): the refinement loop accepts an iteration exactly when
the window is nonempty, the optimizer returns, and the empirical FWHM
rounded to two decimals (`round(wave[medpos[1]]-wave[medpos[0]], 2)`)
lies strictly between `dlamb = line/resolution` and `FWHM_max = 20`;
each accepted iteration uses the width `7*FWHM` of its predecessor (the
first uses the initial width) and saves its state; at most `iter`
iterations are accepted; and on halting the loop keeps the state of the
last accepted iteration (or none). -/
theorem fitline_loop_spec (ctx : FitCtx) (n : ℕ) (w : ℚ) (a : Option AccState) :
    (fitlineLoop ctx n w a).2.length ≤ n ∧
    traceInRange ctx.dlamb ctx.fwhmMax (fitlineLoop ctx n w a).2 = true ∧
    traceChained w (fitlineLoop ctx n w a).2 = true ∧
    (fitlineLoop ctx n w a).1 = lastAccepted a (fitlineLoop ctx n w a).2 ∧
    ((fitlineLoop ctx (n + 1) w a).2 = [] ↔ stepTry ctx w = none) ∧
    (stepTry ctx w = none ↔
      ((iterWin ctx w).1 = [] ∨
        ctx.curveFit (iterWin ctx w).1 (iterNorm ctx w).fluxNorm = none ∨
        ∃ popt, ctx.curveFit (iterWin ctx w).1 (iterNorm ctx w).fluxNorm = some popt ∧
          ¬(ctx.dlamb < iterFW ctx w popt ∧ iterFW ctx w popt < ctx.fwhmMax))) := by
  obtain ⟨h1, h2, h3, h4⟩ := fitlineLoop_skeleton ctx n w a
  refine ⟨h1, h2, h3, h4, ?_, ?_⟩
  · cases h : stepTry ctx w with
    | none => simp [fitlineLoop, h]
    | some p => simp [fitlineLoop, h]
  · unfold stepTry
    by_cases hw : (iterWin ctx w).1 = []
    · simp [hw]
    · simp only [hw, if_neg, not_false_iff, false_or]
      cases hc : ctx.curveFit (iterWin ctx w).1 (iterNorm ctx w).fluxNorm with
      | none => simp
      | some popt =>
        by_cases hacc : ctx.dlamb < iterFW ctx w popt ∧ iterFW ctx w popt < ctx.fwhmMax
        · simp [hacc]
        · simp [hacc]
          intro h5
          by_contra h6
          push_neg at h6
          exact hacc ⟨h5, h6⟩

/-- The spectrum of the C1 counterexample: four samples around a line at
10 AA, with unit flux. -/
def cexWave : List ℚ := [10 - 9998 / 1000, 10, 10 + 9998 / 1000, 10 + 14998 / 1000]

/-- The C1 counterexample context: resolution 10 (`dlamb = 1`),
`FWHM_max = 20`, an optimizer returning the in-bounds Lorentzian
parameters `A = -1, x0 = 10, gamma = 30, y = 1`, and the Lorentzian
profile as `fitfunc`. -/
def cexCtx : FitCtx :=
  ⟨cexWave, [1, 1, 1, 1], 10, 10 / 10, 20,
   fun _ _ => some [-1, 10, 30, 1], lorentzEval⟩

/-- C1 is false as stated: here the wavelength distance between the first
and the last window sample at or below the half-depth level is
`19.996`, strictly between `dlamb = 1` and `FWHM_max = 20`, the window is
nonempty and the optimizer succeeds, yet no iteration is accepted (and
`fitline` returns the sentinel), because the source checks the distance
rounded to two decimals, which is `20.00`. -/
theorem fwhm_acceptance_counterexample :
    cexCtx.dlamb <
      halfDist (iterWin cexCtx 50).1 (cexCtx.fitfunc (iterWin cexCtx 50).1 [-1, 10, 30, 1]) ∧
    halfDist (iterWin cexCtx 50).1 (cexCtx.fitfunc (iterWin cexCtx 50).1 [-1, 10, 30, 1]) <
      cexCtx.fwhmMax ∧
    cexCtx.curveFit (iterWin cexCtx 50).1 (iterNorm cexCtx 50).fluxNorm =
      some [-1, 10, 30, 1] ∧
    (iterWin cexCtx 50).1 ≠ [] ∧
    (fitlineLoop cexCtx 3 50 none).2 = [] ∧
    fitlineRun cexWave [1, 1, 1, 1] 10 50 150 10 0
      (fun _ _ => some [-1, 10, 30, 1]) lorentzEval 3 = none := by
  with_unfolding_all decide

/-! ### Claim C2: uniform sentinel on failure -/

/-- C2: whenever the requested window contains no samples, or the bounded
optimizer raises on the first iteration (before any acceptance), or the
refinement loop ends with a fitted line center farther than `tol_aa` from
the rest wavelength, `fitline` returns the uniform sentinel of nine
undefined values `[np.nan]*9` (and, being a total function of its inputs,
raises no exception). -/
theorem fitline_failure_sentinel (wave flux : List ℚ) (line width tol res offset : ℚ)
    (curveFit : List ℚ → List ℚ → Option (List ℚ))
    (fitfunc : List ℚ → List ℚ → List ℚ) (iter : ℕ)
    (h : (windowSel wave flux line width).1 = [] ∨
      curveFit (windowSel wave flux line width).1
        (normalizeWin (windowSel wave flux line width).1
          (windowSel wave flux line width).2).fluxNorm = none ∨
      ∃ a : AccState,
        (fitlineLoop ⟨wave, flux, line, line / res, 20, curveFit, fitfunc⟩
          iter width none).1 = some a ∧
        tolAA tol line < |line - fittedCenter (windowSel wave flux line a.width).1 a.fluxFit|) :
    renderFit (fitlineRun wave flux line width tol res offset curveFit fitfunc iter) =
      List.replicate 9 RVal.nan := by
  suffices hrun : fitlineRun wave flux line width tol res offset curveFit fitfunc iter = none by
    rw [hrun]; rfl
  rcases h with h | h | ⟨a, ha, htol⟩
  · have hstep : stepTry ⟨wave, flux, line, line / res, 20, curveFit, fitfunc⟩ width = none := by
      unfold stepTry
      simp only [iterWin]
      rw [if_pos h]
    have hloop : (fitlineLoop ⟨wave, flux, line, line / res, 20, curveFit, fitfunc⟩
        iter width none).1 = none := by
      cases iter with
      | zero => rfl
      | succ n => simp [fitlineLoop, hstep]
    unfold fitlineRun
    simp only [hloop]
  · have hstep : stepTry ⟨wave, flux, line, line / res, 20, curveFit, fitfunc⟩ width = none := by
      unfold stepTry
      simp only [iterWin, iterNorm]
      split
      · rfl
      · rw [h]
    have hloop : (fitlineLoop ⟨wave, flux, line, line / res, 20, curveFit, fitfunc⟩
        iter width none).1 = none := by
      cases iter with
      | zero => rfl
      | succ n => simp [fitlineLoop, hstep]
    unfold fitlineRun
    simp only [hloop]
  · unfold fitlineRun
    simp only [ha]
    rw [if_pos htol]

/-- Witness for C2: a one-sample spectrum at 100 AA, asked for a line at
200 AA with a 10 AA window — the window is empty and the sentinel of nine
NaN values comes back. -/
theorem fitline_failure_sentinel_witness :
    (windowSel [(100 : ℚ)] [(1 : ℚ)] 200 10).1 = [] ∧
    renderFit (fitlineRun [100] [1] 200 10 150 10000 0
      (fun _ _ => some []) (fun w _ => w) 3) = List.replicate 9 RVal.nan :=
  ⟨by with_unfolding_all decide,
   fitline_failure_sentinel [100] [1] 200 10 150 10000 0 (fun _ _ => some []) (fun w _ => w) 3
     (Or.inl (by with_unfolding_all decide))⟩

/-! ### Claim C5: equivalent width -/

theorem ewSum_eq (w f : List ℚ) :
    ewSum w f = -2 * trapzX w (f.map (fun y => 1 - y)) := by
  induction w generalizing f with
  | nil => cases f <;> simp [ewSum, trapzX]
  | cons a t ih =>
    cases t with
    | nil =>
      cases f with
      | nil => simp [ewSum, trapzX]
      | cons ya ft => cases ft <;> simp [ewSum, trapzX]
    | cons b t2 =>
      cases f with
      | nil => simp [ewSum, trapzX]
      | cons ya ft =>
        cases ft with
        | nil => simp [ewSum, trapzX]
        | cons yb yt =>
          have h := ih (yb :: yt)
          simp only [ewSum, trapzX, List.map_cons, h]
          ring

theorem trapzX_nonneg (w f : List ℚ) (hs : w.Chain' (fun a b => a ≤ b))
    (hf : ∀ y ∈ f, y ≤ 1) :
    0 ≤ trapzX w (f.map (fun y => 1 - y)) := by
  induction w generalizing f with
  | nil => cases f <;> simp [trapzX]
  | cons a t ih =>
    cases t with
    | nil =>
      cases f with
      | nil => simp [trapzX]
      | cons ya ft => cases ft <;> simp [trapzX]
    | cons b t2 =>
      cases f with
      | nil => simp [trapzX]
      | cons ya ft =>
        cases ft with
        | nil => simp [trapzX]
        | cons yb yt =>
          simp only [List.map_cons, trapzX]
          have hab : a ≤ b := (List.chain'_cons.mp hs).1
          have hrec := ih (yb :: yt) (List.chain'_cons.mp hs).2
            (fun y hy => hf y (List.mem_cons_of_mem _ hy))
          simp only [List.map_cons] at hrec
          have hya : ya ≤ 1 := hf ya (by simp)
          have hyb : yb ≤ 1 := hf yb (by simp)
          have : 0 ≤ (b - a) * (1 - ya + (1 - yb)) / 2 := by
            apply div_nonneg _ (by norm_num)
            apply mul_nonneg (by linarith) (by linarith)
          linarith

theorem roundHalfEven_nonneg {x : ℚ} (hx : 0 ≤ x) : 0 ≤ roundHalfEven x := by
  have hf : (0 : ℤ) ≤ ⌊x⌋ := Int.floor_nonneg.mpr hx
  simp only [roundHalfEven]
  split
  · exact hf
  · split
    · omega
    · split <;> omega

/-- C5 (amended): for every window and fitted flux, the equivalent width
returned by `fitline` equals 1000 times the ABSOLUTE VALUE of the
trapezoidal integral of `1 - fitted_flux` over the window wavelengths,
rounded to two decimals; in particular, when the wavelengths are
ascending and the fitted flux is at most 1 everywhere, it equals the
(necessarily non-negative) signed integral and is non-negative. -/
theorem ew_trapezoid_spec (wave ffit : List ℚ)
    (hs : wave.Chain' (fun a b => a ≤ b)) (hf : ∀ y ∈ ffit, y ≤ 1) :
    EW_of wave ffit = pyRound2 (1000 * trapzX wave (ffit.map (fun y => 1 - y))) ∧
    0 ≤ EW_of wave ffit := by
  have habs : |ewSum wave ffit| = 2 * trapzX wave (ffit.map (fun y => 1 - y)) := by
    rw [ewSum_eq, abs_mul]
    rw [abs_of_nonneg (trapzX_nonneg wave ffit hs hf)]
    norm_num
  constructor
  · unfold EW_of
    rw [habs]
    congr 1
    ring
  · unfold EW_of
    unfold pyRound2
    apply div_nonneg _ (by norm_num)
    exact_mod_cast roundHalfEven_nonneg
      (by positivity : (0 : ℚ) ≤ 1000 * (1 / 2 * |ewSum wave ffit|) * 100)

/-- Witness for C5 (amended): an ascending two-sample window with fitted
flux `1/2` — the equivalent width equals the rounded trapezoidal integral
and is non-negative. -/
theorem ew_trapezoid_spec_witness :
    EW_of [0, 1] [1 / 2, 1 / 2] =
      pyRound2 (1000 * trapzX [0, 1] ([1 / 2, 1 / 2].map (fun y => 1 - y))) ∧
    0 ≤ EW_of [0, 1] [1 / 2, 1 / 2] :=
  ew_trapezoid_spec [0, 1] [1 / 2, 1 / 2] (by norm_num [List.chain'_cons])
    (by intro y hy; rcases List.mem_pair.mp hy with rfl | rfl <;> norm_num)

/-- C5 is false as stated: a successful `fitline` run (Lorentzian
parameters `A = 0, x0 = 60, gamma = 1, y = 1.01`, all within the 'l'
bounds, so the fitted flux is the constant `1.01 > 1`) returns an
equivalent width of `+100` mAA, while 1000 times the trapezoidal integral
of `1 - fitted_flux`, rounded to two decimals, is `-100`: the source
takes the absolute value of the integral. -/
theorem ew_sign_counterexample :
    (fitlineRun [55, 65] [1, 1] 60 10 30000 60 0
        (fun _ _ => some [0, 60, 1, 101 / 100]) lorentzEval 3).map (fun r => r.EW) =
      some 100 ∧
    pyRound2 (1000 * trapzX [55, 65]
        ((lorentzEval [55, 65] [0, 60, 1, 101 / 100]).map (fun y => 1 - y))) = -100 := by
  with_unfolding_all decide

/-! ### Claim C3: the continuum normalizer's final mask -/

/-- C3 is false as stated: on the window `wave = [0..4]`,
`flux = [9, 3/4, -8, -1/2, 4]`, the mask used in the final (4th)
continuum fit — the mask produced by round 3 — is
`[true, true, false, true, true]`, while the mask the normalizer returns
(recomputed by sigma-clipping over the final continuum, because the
source guard `if j < iter_norm` always holds) is all-true; so the
returned mask is not "True exactly on the samples used in the final
continuum fit". -/
theorem normalize_mask_counterexample :
    (normalizeWin [0, 1, 2, 3, 4] [9, 3 / 4, -8, -1 / 2, 4]).mask
      = [true, true, true, true, true] ∧
    (normRounds [0, 1, 2, 3, 4] [9, 3 / 4, -8, -1 / 2, 4] 3).2
      = [true, true, false, true, true] ∧
    (normalizeWin [0, 1, 2, 3, 4] [9, 3 / 4, -8, -1 / 2, 4]).mask ≠
      (normRounds [0, 1, 2, 3, 4] [9, 3 / 4, -8, -1 / 2, 4] 3).2 := by
  with_unfolding_all decide

/-- C3 (amended): the normalizer runs exactly 4 rounds, each fitting a
first-degree polynomial to the currently unmasked samples, evaluating it
over the whole window and re-clipping; its outputs are the normalized
flux `flux/continuum` for the final continuum (which is fit on the
round-3 mask) together with a final mask obtained by sigma-clipping the
normalized flux over that final continuum — recomputed after the final
fit, hence not in general the mask the final fit used. -/
theorem normalize_final_mask_spec (wave flux : List ℚ) :
    (normalizeWin wave flux).fluxNorm = zipDiv flux (normalizeWin wave flux).cont ∧
    (normalizeWin wave flux).cont =
      wave.map (polyval1 (polyfit1 (selB wave (normRounds wave flux 3).2)
        (selB flux (normRounds wave flux 3).2))) ∧
    (normalizeWin wave flux).mask = sigmaClipMask (normalizeWin wave flux).fluxNorm := by
  refine ⟨rfl, ?_, ?_⟩ <;>
    simp [normalizeWin, normRounds, normRound]

/-! ### Claim C6: the local signal-to-noise -/

/-- C6 is false as stated: with normalized flux `[0, 1, 2]` all unmasked,
`std = sqrt(2/3)` and `1/std = sqrt(3/2) ≈ 1.22` is not an integer, so
`snr = int(1/std) = 1` differs from the reciprocal of the standard
deviation: the source truncates to an integer. -/
theorem snr_reciprocal_counterexample :
    ((snrOf [0, 1, 2] [true, true, true] : ℤ) : ℝ) ≠
      1 / stdR (selB [0, 1, 2] [true, true, true]) := by
  have hsel : selB [0, 1, 2] [true, true, true] = [0, 1, 2] := rfl
  have hvar : varP [0, 1, 2] = 2 / 3 := by with_unfolding_all decide
  have hstd : stdR (selB [0, 1, 2] [true, true, true]) = Real.sqrt (2 / 3) := by
    rw [hsel, stdR, hvar]
    norm_num
  have hs0 : (0 : ℝ) < Real.sqrt (2 / 3) := Real.sqrt_pos.mpr (by norm_num)
  have hs1 : Real.sqrt (2 / 3) ≤ 1 := by
    rw [show (1 : ℝ) = Real.sqrt 1 by rw [Real.sqrt_one]]
    exact Real.sqrt_le_sqrt (by norm_num)
  have hs2 : 1 / 2 < Real.sqrt (2 / 3) := by
    rw [show (1 / 2 : ℝ) = Real.sqrt (1 / 4) by
      rw [show (1 / 4 : ℝ) = (1 / 2) ^ 2 by norm_num, Real.sqrt_sq (by norm_num)]]
    exact Real.sqrt_lt_sqrt (by norm_num) (by norm_num)
  have ht1 : 1 ≤ 1 / Real.sqrt (2 / 3) := by
    rw [le_div_iff₀ hs0]
    linarith
  have ht2 : 1 / Real.sqrt (2 / 3) < 2 := by
    rw [div_lt_iff₀ hs0]
    linarith
  have hint : snrOf [0, 1, 2] [true, true, true] = 1 := by
    unfold snrOf pyInt
    rw [hstd, if_pos (by positivity)]
    exact Int.floor_eq_iff.mpr ⟨by exact_mod_cast ht1, by exact_mod_cast ht2⟩
  rw [hint, hstd]
  intro h
  have : Real.sqrt (2 / 3) = 1 := by
    field_simp at h
    linarith [h]
  nlinarith [Real.sq_sqrt (show (0 : ℝ) ≤ 2 / 3 by norm_num), this]

/-- C6 (amended): the returned local signal-to-noise is the reciprocal of
the standard deviation of the normalized flux over the final mask,
truncated to an integer (`int(...)`): whenever that standard deviation is
positive, `snr ≤ 1/std < snr + 1`. -/
theorem snr_floor_spec (fn : List ℚ) (mask : List Bool)
    (h : 0 < stdR (selB fn mask)) :
    ((snrOf fn mask : ℤ) : ℝ) ≤ 1 / stdR (selB fn mask) ∧
    1 / stdR (selB fn mask) < (snrOf fn mask : ℤ) + 1 := by
  have ht : (0 : ℝ) ≤ 1 / stdR (selB fn mask) := by positivity
  unfold snrOf pyInt
  rw [if_pos ht]
  refine ⟨Int.floor_le _, ?_⟩
  exact_mod_cast Int.lt_floor_add_one (1 / stdR (selB fn mask))

/-- Witness for C6 (amended): the normalized flux `[0, 1, 2]`, all
unmasked, has positive standard deviation, and the theorem applies. -/
theorem snr_floor_spec_witness :
    ((snrOf [0, 1, 2] [true, true, true] : ℤ) : ℝ) ≤
      1 / stdR (selB [0, 1, 2] [true, true, true]) ∧
    1 / stdR (selB [0, 1, 2] [true, true, true]) <
      (snrOf [0, 1, 2] [true, true, true] : ℤ) + 1 :=
  snr_floor_spec [0, 1, 2] [true, true, true] (by
    have hsel : selB [0, 1, 2] [true, true, true] = [0, 1, 2] := rfl
    have hvar : varP [0, 1, 2] = 2 / 3 := by with_unfolding_all decide
    rw [hsel, stdR, hvar]
    apply Real.sqrt_pos.mpr
    norm_num)

/-! ### Convolution (`scipy.signal.convolve(..., mode='same')`) and the
cosmic-ray cleaner (`spec.cosmic`, lines 490-522)

The kernels the source builds are Gaussian (or rotational-macroturbulent)
samples, so they are real-valued; the convolution pipeline is therefore
embedded over `ℝ`, while the flux arrays it cleans stay rational. -/

/-- `np.mean` over `ℝ`. -/
noncomputable def meanR (l : List ℝ) : ℝ := l.sum / l.length

/-- `np.var` (`ddof=0`) over `ℝ`; `np.std` is `Real.sqrt` of it. -/
noncomputable def varPR (l : List ℝ) : ℝ :=
  ((l.map (fun x => (x - meanR l) ^ 2)).sum) / l.length

/-- `np.trapz(y)` with unit spacing over `ℝ`. -/
noncomputable def trapz1R : List ℝ → ℝ
  | [] => 0
  | [_] => 0
  | a :: b :: t => (a + b) / 2 + trapz1R (b :: t)

/-- Full discrete convolution over `ℝ`: entry `n` is `sum_k a[k]*b[n-k]`. -/
noncomputable def convFullR (a b : List ℝ) : List ℝ :=
  (List.range (a.length + b.length - 1)).map (fun n =>
    ((List.range a.length).map (fun kk =>
      if kk ≤ n then a.getD kk 0 * b.getD (n - kk) 0 else 0)).sum)

/-- `scipy.signal.convolve(a, b, mode='same')`: the centered slice of the
full convolution, of the length of the first argument. -/
noncomputable def convolveSameR (a b : List ℝ) : List ℝ :=
  ((convFullR a b).drop ((b.length - 1) / 2)).take a.length

/-- The convolution stage shared by `cosmic`, `degrade` and `snrcalc`:
`1 + convolve(flux - 1, kernel, mode='same')`. -/
noncomputable def convStageR (flux kernel : List ℝ) : List ℝ :=
  (convolveSameR (flux.map (fun x => x - 1)) kernel).map (fun x => 1 + x)

/-- Kernel normalization `kernel = g/np.trapz(g)` shared by the three
kernel builders. -/
noncomputable def normKernelR (g : List ℝ) : List ℝ := g.map (fun x => x / trapz1R g)

theorem convFullR_length (a b : List ℝ) :
    (convFullR a b).length = a.length + b.length - 1 := by
  simp [convFullR]

theorem getD_replicateR (n i : ℕ) : (List.replicate n (0 : ℝ)).getD i 0 = 0 := by
  induction n generalizing i with
  | zero => simp
  | succ m ih =>
    cases i with
    | zero => simp [List.replicate]
    | succ j => simp [List.replicate, ih j]

theorem convFullR_zero (n : ℕ) (b : List ℝ) :
    convFullR (List.replicate n 0) b = List.replicate (n + b.length - 1) 0 := by
  rw [List.eq_replicate_iff]
  constructor
  · simpa using convFullR_length (List.replicate n 0) b
  · intro x hx
    simp only [convFullR, List.length_replicate, List.mem_map] at hx
    obtain ⟨m, -, rfl⟩ := hx
    apply List.sum_eq_zero
    intro y hy
    simp only [List.mem_map] at hy
    obtain ⟨kk, -, rfl⟩ := hy
    split
    · rw [getD_replicateR, zero_mul]
    · rfl

theorem convolveSameR_length (a b : List ℝ) (hb : b ≠ []) :
    (convolveSameR a b).length = a.length := by
  have h1 : 1 ≤ b.length := List.length_pos.mpr hb
  simp only [convolveSameR, List.length_take, List.length_drop, convFullR_length]
  omega

theorem convStageR_length (flux kernel : List ℝ) (hb : kernel ≠ []) :
    (convStageR flux kernel).length = flux.length := by
  simp [convStageR, convolveSameR_length _ _ hb]

/-- C7: for every flux array constant at 1 and every kernel normalized as
the builders of `cosmic`, `degrade` and `snrcalc` do
(`kernel = g/np.trapz(g)` for a nonempty sample array `g`), the
convolution stage `1 + convolve(flux - 1, kernel, mode='same')` is again
identically 1 and has the length of the input. -/
theorem convolution_preserves_continuum (n : ℕ) (g : List ℝ) (hg : g ≠ []) :
    convStageR (List.replicate n 1) (normKernelR g) = List.replicate n 1 ∧
    (convStageR (List.replicate n 1) (normKernelR g)).length = n := by
  have hgl : 1 ≤ g.length := List.length_pos.mpr hg
  have hone : (List.replicate n (1 : ℝ)).map (fun x => x - 1) = List.replicate n 0 := by
    rw [List.map_replicate]
    norm_num
  have hsame : convolveSameR (List.replicate n 0) (normKernelR g) = List.replicate n 0 := by
    unfold convolveSameR
    rw [convFullR_zero, List.drop_replicate, List.take_replicate]
    congr 1
    simp only [normKernelR, List.length_replicate, List.length_map]
    omega
  have hmain : convStageR (List.replicate n 1) (normKernelR g) = List.replicate n 1 := by
    unfold convStageR
    rw [hone, hsame, List.map_replicate]
    norm_num
  exact ⟨hmain, by rw [hmain]; simp⟩

/-- Witness for C7: a three-sample constant flux and the normalized
two-sample kernel built from `g = [1, 2]`. -/
theorem convolution_preserves_continuum_witness :
    convStageR (List.replicate 3 1) (normKernelR [1, 2]) = List.replicate 3 1 ∧
    (convStageR (List.replicate 3 1) (normKernelR [1, 2])).length = 3 :=
  convolution_preserves_continuum 3 [1, 2] (by simp)

/-- `np.interp(x, xp, fp)` for ascending `xp`: clamped piecewise-linear
interpolation (`0` for empty support, where numpy raises). -/
def npInterp (x : ℚ) : List ℚ → List ℚ → ℚ
  | [], _ => 0
  | [_], y0 :: _ => y0
  | _ :: _, [] => 0
  | x0 :: x1 :: xt, y0 :: yt =>
    if x ≤ x0 then y0
    else
      match yt with
      | [] => y0
      | y1 :: yt2 =>
        if x ≤ x1 then y0 + (x - x0) * (y1 - y0) / (x1 - x0)
        else npInterp x (x1 :: xt) (y1 :: yt2)

/-- The convolved reference of `cosmic`:
`1 + convolve(flux - 1, kernel, mode='same')`. -/
noncomputable def cosmicConv (flux : List ℚ) (kernel : List ℝ) : List ℝ :=
  convStageR (flux.map (fun (q : ℚ) => (q : ℝ))) kernel

/-- The normalized ratio `flux_norm = flux/convoluted` of `cosmic`. -/
noncomputable def cosmicRatio (flux : List ℚ) (kernel : List ℝ) : List ℝ :=
  List.zipWith (fun (f : ℚ) (c : ℝ) => (f : ℝ) / c) flux (cosmicConv flux kernel)

/-- `np.nanstd(flux_norm)` of `cosmic`. -/
noncomputable def cosmicStd (flux : List ℚ) (kernel : List ℝ) : ℝ :=
  Real.sqrt (varPR (cosmicRatio flux kernel))

/-- The defect flags of `cosmic`: `flux_norm > 1 + sigclip*std` per
sample. -/
noncomputable def cosmicFlags (flux : List ℚ) (kernel : List ℝ) (k : ℝ) : List Bool :=
  (cosmicRatio flux kernel).map
    (fun r => decide (1 + k * cosmicStd flux kernel < r))

/-- The whole of `cosmic` on the flux array: flag defects, then replace
exactly the flagged samples by `np.interp` over the non-flagged indices. -/
noncomputable def cosmicFull (flux : List ℚ) (kernel : List ℝ) (k : ℝ) : List ℚ :=
  let flags := cosmicFlags flux kernel k
  let xp := ((List.range flux.length).filter
    (fun i => !(flags.getD i true))).map (fun i => (i : ℚ))
  let fp := selB flux (flags.map (fun b => !b))
  (List.zip flux flags).mapIdx (fun i p => if p.2 then npInterp (i : ℚ) xp fp else p.1)

theorem cosmicRatio_length (flux : List ℚ) (kernel : List ℝ) (hb : kernel ≠ []) :
    (cosmicRatio flux kernel).length = flux.length := by
  have hc : (cosmicConv flux kernel).length = flux.length := by
    unfold cosmicConv
    rw [convStageR_length _ _ hb, List.length_map]
  unfold cosmicRatio
  rw [List.length_zipWith, hc, min_self]

theorem cosmicFlags_length (flux : List ℚ) (kernel : List ℝ) (k : ℝ) (hb : kernel ≠ []) :
    (cosmicFlags flux kernel k).length = flux.length := by
  simp [cosmicFlags, cosmicRatio_length _ _ hb]

theorem noFlagFill (g : ℕ → ℚ) (flux : List ℚ) (flags : List Bool)
    (hlen : flux.length ≤ flags.length) (hall : ∀ b ∈ flags, b = false) :
    (List.zip flux flags).mapIdx (fun i p => if p.2 then g i else p.1) = flux := by
  induction flux generalizing flags g with
  | nil => simp
  | cons x t ih =>
    cases flags with
    | nil => simp at hlen
    | cons b bt =>
      have hb : b = false := hall b (by simp)
      subst hb
      simp only [List.zip_cons_cons, List.mapIdx_cons, Bool.false_eq_true, if_false]
      rw [List.cons.injEq]
      refine ⟨rfl, ?_⟩
      exact ih (fun i => g (i + 1)) bt (by simpa using hlen)
        (fun b hb => hall b (List.mem_cons_of_mem _ hb))

theorem fillAt (g : ℕ → ℚ) (flux : List ℚ) (flags : List Bool) (i : ℕ)
    (hlen : flags.length = flux.length) (hflag : flags.getD i false = false) :
    ((List.zip flux flags).mapIdx (fun j p => if p.2 then g j else p.1)).getD i 0 =
      flux.getD i 0 := by
  induction flux generalizing flags g i with
  | nil =>
    cases flags with
    | nil => simp
    | cons b bt => simp at hlen
  | cons x t ih =>
    cases flags with
    | nil => simp at hlen
    | cons b bt =>
      cases i with
      | zero =>
        simp only [List.getD_cons_zero] at hflag
        subst hflag
        simp [List.mapIdx_cons]
      | succ j =>
        simp only [List.getD_cons_succ] at hflag ⊢
        simp only [List.zip_cons_cons, List.mapIdx_cons, List.getD_cons_succ]
        exact ih (fun i => g (i + 1)) bt j (by simpa using hlen) hflag

/-- C8: if no sample of the ratio `flux/convolved` exceeds the threshold
`1 + sigclip*std(ratio)`, then `cosmic` flags nothing and leaves the flux
exactly unchanged, and consequently applying it twice equals applying it
once. -/
theorem cosmic_idempotent_defect_free (flux : List ℚ) (kernel : List ℝ) (k : ℝ)
    (hker : kernel ≠ [])
    (h : ∀ r ∈ cosmicRatio flux kernel, r ≤ 1 + k * cosmicStd flux kernel) :
    cosmicFull flux kernel k = flux ∧
    cosmicFull (cosmicFull flux kernel k) kernel k = cosmicFull flux kernel k := by
  have hflags : ∀ b ∈ cosmicFlags flux kernel k, b = false := by
    intro b hb
    simp only [cosmicFlags, List.mem_map] at hb
    obtain ⟨r, hr, rfl⟩ := hb
    exact decide_eq_false (not_lt.mpr (h r hr))
  have hlen := cosmicFlags_length flux kernel k hker
  have h1 : cosmicFull flux kernel k = flux := by
    unfold cosmicFull
    exact noFlagFill _ flux _ (le_of_eq hlen.symm) hflags
  refine ⟨h1, ?_⟩
  rw [h1]
  exact h1

theorem cosmicRatio_ones : cosmicRatio [1, 1, 1] [(1 : ℝ)] = [1, 1, 1] := by
  norm_num [cosmicRatio, cosmicConv, convStageR, convolveSameR, convFullR,
    List.range_succ, List.zipWith]

theorem cosmicStd_ones : cosmicStd [1, 1, 1] [(1 : ℝ)] = 0 := by
  have hv : varPR [(1 : ℝ), 1, 1] = 0 := by
    norm_num [varPR, meanR]
  unfold cosmicStd
  rw [cosmicRatio_ones, hv, Real.sqrt_zero]

/-- Witness for C8: a constant flux `[1, 1, 1]` with the unit kernel
`[1]` and `sigclip = 1.5` — the ratio is identically 1, nothing exceeds
the threshold, and cleaning is the identity (hence idempotent). -/
theorem cosmic_idempotent_defect_free_witness :
    cosmicFull [1, 1, 1] [(1 : ℝ)] (3 / 2) = [1, 1, 1] ∧
    cosmicFull (cosmicFull [1, 1, 1] [(1 : ℝ)] (3 / 2)) [(1 : ℝ)] (3 / 2) =
      cosmicFull [1, 1, 1] [(1 : ℝ)] (3 / 2) :=
  cosmic_idempotent_defect_free [1, 1, 1] [(1 : ℝ)] (3 / 2) (by simp)
    (by
      intro r hr
      rw [cosmicRatio_ones] at hr
      rw [cosmicStd_ones]
      simp only [List.mem_cons, List.not_mem_nil, or_false] at hr
      rcases hr with rfl | rfl | rfl <;> norm_num)

/-! ### The Spectrum container (`class spec`) and in-place operations -/

/-- The mutable state of a `spec` instance that the verified operations
touch: `waveFull/fluxFull` are the (helio-corrected, offset-shifted) full
arrays as loaded from the FITS file by `waveflux` (file parsing is an
external collaborator), `headerDx`/`headerSnr` the header values
`CDELT1`/`I-SNR` that `waveflux` re-installs, and `wave/flux/dx/snr` the
current (mutated in place) state. -/
structure SpecState where
  waveFull : List ℚ
  fluxFull : List ℚ
  headerDx : ℚ
  headerSnr : ℝ
  wave : List ℚ
  flux : List ℚ
  dx : ℚ
  resolution : ℚ
  snr : ℝ

/-- `spec.cosmic`: replaces the flux array (only) by the cleaned one; the
Gaussian kernel it builds (lines 501-508) enters as the `kernel`
argument. -/
noncomputable def cosmicS (s : SpecState) (kernel : List ℝ) (k : ℝ) : SpecState :=
  { s with flux := cosmicFull s.flux kernel k }

/-- C9: `cosmic` never modifies the wavelength array, the cleaned flux
has the length of the original, and every sample whose ratio does not
exceed the threshold `1 + sigclip*std` (whose flag is false) keeps its
original flux value — only flagged samples are replaced, by
interpolation over the non-flagged indices. -/
theorem cosmic_frame_effect (s : SpecState) (kernel : List ℝ) (k : ℝ)
    (hker : kernel ≠ []) :
    (cosmicS s kernel k).wave = s.wave ∧
    (cosmicS s kernel k).flux.length = s.flux.length ∧
    (∀ i : ℕ, (cosmicFlags s.flux kernel k).getD i false = false →
      (cosmicS s kernel k).flux.getD i 0 = s.flux.getD i 0) := by
  have hlen := cosmicFlags_length s.flux kernel k hker
  refine ⟨rfl, ?_, ?_⟩
  · simp only [cosmicS, cosmicFull]
    rw [List.length_mapIdx, List.length_zip, hlen, min_self]
  · intro i hflag
    simp only [cosmicS, cosmicFull]
    exact fillAt _ s.flux _ i hlen hflag

/-- Witness for C9: a concrete spectrum state with flux `[1, 1, 1]`,
kernel `[1]` and `sigclip = 1.5`; sample 0 is unflagged and keeps its
value. -/
theorem cosmic_frame_effect_witness :
    (cosmicS ⟨[], [], 0, 0, [4000, 4001, 4002], [1, 1, 1], 1, 10000, 0⟩ [(1 : ℝ)]
      (3 / 2)).wave = [4000, 4001, 4002] ∧
    (cosmicS ⟨[], [], 0, 0, [4000, 4001, 4002], [1, 1, 1], 1, 10000, 0⟩ [(1 : ℝ)]
      (3 / 2)).flux.length = 3 ∧
    (cosmicFlags [1, 1, 1] [(1 : ℝ)] (3 / 2)).getD 0 false = false ∧
    (cosmicS ⟨[], [], 0, 0, [4000, 4001, 4002], [1, 1, 1], 1, 10000, 0⟩ [(1 : ℝ)]
      (3 / 2)).flux.getD 0 0 = 1 := by
  have h := cosmic_frame_effect ⟨[], [], 0, 0, [4000, 4001, 4002], [1, 1, 1], 1, 10000, 0⟩
    [(1 : ℝ)] (3 / 2) (by simp)
  have hflag : (cosmicFlags [1, 1, 1] [(1 : ℝ)] (3 / 2)).getD 0 false = false := by
    have hth : ¬((1 : ℝ) + 3 / 2 * cosmicStd [1, 1, 1] [(1 : ℝ)] < 1) := by
      rw [cosmicStd_ones]
      norm_num
    unfold cosmicFlags
    rw [cosmicRatio_ones]
    simp [hth]
  exact ⟨h.1, by simpa using h.2.1, hflag, by simpa using h.2.2 0 hflag⟩

/-! ### `spec.waveflux` (reload) and `spec.snrcalc` (lines 444-487) -/

/-- `spec.waveflux(lwl, rwl)` with the default `width = 0`: reload the
wavelength and flux arrays from the stored full arrays restricted to
`[lwl, rwl]`, and re-install the header step `dx` and header SNR
(`self.snr = I_SNR`), discarding any in-place modifications. -/
def waveflux (s : SpecState) (lwl rwl : ℚ) : SpecState :=
  let p := (s.waveFull.zip s.fluxFull).filter
    (fun q => decide (lwl ≤ q.1) && decide (q.1 ≤ rwl))
  { s with wave := p.map (fun q => q.1), flux := p.map (fun q => q.2),
           dx := s.headerDx, snr := s.headerSnr }

/-- `np.arange(lo, hi, step)`. -/
def arangeQ (lo hi step : ℚ) : List ℚ :=
  (List.range ((hi - lo) / step).ceil.toNat).map (fun i => lo + i * step)

/-- `f_gaussian(x, sigma) = np.exp(-(x/sigma)**2/2)`. -/
noncomputable def f_gaussianR (x sigma : ℝ) : ℝ := Real.exp (-(x / sigma) ^ 2 / 2)

/-- The Gaussian kernel of `snrcalc`:
`sigma = mean(wave)/(2.35482*10000)`, sampled on
`np.arange(-5*sigma, 5*sigma, dx)` and normalized by its trapezoidal
integral. -/
noncomputable def snrKernel (wave : List ℚ) (dx : ℚ) : List ℝ :=
  let sigma : ℚ := meanQ wave / (235482 / 100000 * 10000)
  normKernelR ((arangeQ (-5 * sigma) (5 * sigma) dx).map
    (fun x => f_gaussianR (x : ℝ) (sigma : ℝ)))

/-- One gap of `snrcalc`: restrict the normalized flux to the gap,
symmetric 3-sigma clip around 1, and return `1/std` of the surviving
samples (`none` models the all-clipped case whose `nanstd` is nan and is
skipped by `np.nanmean`). -/
noncomputable def snrGapValue (wave : List ℚ) (fluxNorm : List ℝ) (lwl rwl : ℚ) :
    Option ℝ :=
  let sel := ((wave.zip fluxNorm).filter
    (fun q => decide (lwl ≤ q.1) && decide (q.1 ≤ rwl))).map (fun q => q.2)
  let std := Real.sqrt (varPR sel)
  let cleaned := sel.filter (fun x => |x - 1| ≤ 3 * std)
  if cleaned = [] then none else some (1 / Real.sqrt (varPR cleaned))

/-- The measured SNR of `snrcalc`: convolve with the Gaussian kernel,
normalize, and average `1/std` over the gaps (`np.nanmean`). -/
noncomputable def snrValueR (gaps : List (ℚ × ℚ)) (wave flux : List ℚ) (dx : ℚ) : ℝ :=
  let kernel := snrKernel wave dx
  let convoluted := convStageR (flux.map (fun (q : ℚ) => (q : ℝ))) kernel
  let fluxNorm := List.zipWith (fun (f : ℚ) (c : ℝ) => (f : ℝ) / c) flux convoluted
  meanR (gaps.filterMap (fun g => snrGapValue wave fluxNorm g.1 g.2))

/-- The zone dispatch of `snrcalc`: the recognized zones and their
wavelength ranges. -/
def zoneLimits (zone : String) : Option (ℚ × ℚ) :=
  if zone = "b" ∨ zone = "B" then some (4000, 5000)
  else if zone = "v" ∨ zone = "V" then some (5000, 6000)
  else if zone = "r" ∨ zone = "R" then some (6000, 7000)
  else if zone = "all" ∨ zone = "ALL" then some (4000, 7000)
  else none

/-- `spec.snrcalc(zone)`: reload via `waveflux` when the zone is
recognized, compute the mean per-gap SNR, and store it in `self.snr`;
the gap table (`snr_gaps.txt`, an external file) enters as `gaps`. -/
noncomputable def snrcalcS (gaps : List (ℚ × ℚ)) (s : SpecState) (zone : String) :
    SpecState :=
  let s1 := match zoneLimits zone with
    | some p => waveflux s p.1 p.2
    | none => s
  { s1 with snr := snrValueR gaps s1.wave s1.flux s1.dx }

/-- C10: for every recognized zone, `snrcalc` replaces the wavelength and
flux arrays in place with the freshly reloaded data restricted to the
zone (via `waveflux`), overwrites the stored `snr` attribute with the
computed mean per-gap signal-to-noise, and its entire result is
independent of the current (possibly cleaned/degraded/resampled)
`wave`, `flux`, `dx` and `snr` state — prior in-place modifications are
discarded. -/
theorem snrcalc_reload_overwrites (gaps : List (ℚ × ℚ)) (s : SpecState) (zone : String)
    (lo hi : ℚ) (hz : zoneLimits zone = some (lo, hi)) :
    (snrcalcS gaps s zone).wave = (waveflux s lo hi).wave ∧
    (snrcalcS gaps s zone).flux = (waveflux s lo hi).flux ∧
    (snrcalcS gaps s zone).snr =
      snrValueR gaps (waveflux s lo hi).wave (waveflux s lo hi).flux s.headerDx ∧
    (∀ wave' flux' dx' snr',
      snrcalcS gaps { s with wave := wave', flux := flux', dx := dx', snr := snr' } zone =
        snrcalcS gaps s zone) := by
  refine ⟨?_, ?_, ?_, ?_⟩
  · simp [snrcalcS, hz]
  · simp [snrcalcS, hz]
  · simp [snrcalcS, hz, waveflux]
  · intro wave' flux' dx' snr'
    simp [snrcalcS, hz, waveflux]

/-- Witness for C10: zone `"b"` on a concrete state; the reload and the
overwrite hold, and modifying the mutable fields beforehand does not
change the result. -/
theorem snrcalc_reload_overwrites_witness :
    (snrcalcS [(4000, 5000)] ⟨[4500], [2], 1, 50, [9999], [7], 3, 10000, 0⟩ "b").wave =
      (waveflux ⟨[4500], [2], 1, 50, [9999], [7], 3, 10000, 0⟩ 4000 5000).wave ∧
    (snrcalcS [(4000, 5000)] ⟨[4500], [2], 1, 50, [9999], [7], 3, 10000, 0⟩ "b").snr =
      snrValueR [(4000, 5000)]
        (waveflux ⟨[4500], [2], 1, 50, [9999], [7], 3, 10000, 0⟩ 4000 5000).wave
        (waveflux ⟨[4500], [2], 1, 50, [9999], [7], 3, 10000, 0⟩ 4000 5000).flux 1 ∧
    snrcalcS [(4000, 5000)]
        { (⟨[4500], [2], 1, 50, [9999], [7], 3, 10000, 0⟩ : SpecState) with
          wave := [1], flux := [2], dx := 9, snr := 5 } "b" =
      snrcalcS [(4000, 5000)] ⟨[4500], [2], 1, 50, [9999], [7], 3, 10000, 0⟩ "b" := by
  have h := snrcalc_reload_overwrites [(4000, 5000)]
    ⟨[4500], [2], 1, 50, [9999], [7], 3, 10000, 0⟩ "b" 4000 5000 (by simp [zoneLimits])
  exact ⟨h.1, h.2.2.1, h.2.2.2 [1] [2] 9 5⟩
